import Mathlib

/-!
Verification development for the telemetry-js library.

The TypeScript sources under `src/` are shallowly embedded:
pure functions become Lean functions, the stateful middlewares become
explicit state-passing step functions, JavaScript promise rejection /
`throw` becomes an explicit error component, and JavaScript's `Map`
(which preserves insertion order) becomes an ordered association list.
-/

namespace TelemetryJs

/-! ## Data model (src/core/types.ts)

JavaScript values carried inside envelopes are modelled as finite trees
(`JsTree`): each object/array node occurs once and there are no reference
cycles, so the `WeakSet` cycle guards of the source never fire on them.
Numbers are modelled as rationals (integer-valued in all claims considered);
`undefined` is a separate leaf.
A second, heap-based value model for reference sharing appears further below
for the canonical serializer. -/

inductive JsTree where
  | vnull : JsTree
  | vundef : JsTree
  | vbool (b : Bool) : JsTree
  | vnum (q : ℚ) : JsTree
  | vstr (s : String) : JsTree
  | vbigint (i : ℤ) : JsTree
  | vfunc : JsTree
  | arr (elems : List JsTree) : JsTree
  | obj (fields : List (String × JsTree)) : JsTree

/-- `Ctx = Record<string, unknown>`: an insertion-ordered string-keyed record. -/
abbrev Ctx := List (String × JsTree)

inductive LogLevel where
  | debug | info | warn | error
  deriving Repr, DecidableEq

def LogLevel.toString : LogLevel → String
  | .debug => "debug"
  | .info => "info"
  | .warn => "warn"
  | .error => "error"

/-- `LogRecord` from src/core/types.ts (`kind` is the variant tag below). -/
structure LogRecord where
  level : LogLevel
  msg : String
  data : Option Ctx
  err : Option JsTree

/-- `EventRecord` from src/core/types.ts. -/
structure EventRecord where
  name : String
  props : Option Ctx

inductive TelemetryRecord where
  | log (r : LogRecord)
  | event (r : EventRecord)

/-- `Envelope` from src/core/types.ts. -/
structure Envelope where
  ts : ℤ
  ctx : Ctx
  record : TelemetryRecord

/-! ## Pipeline dispatch (src/core/pipeline.ts)

`compose` gives each middleware the envelope and a `next` continuation and
guards against `next` being invoked twice via the mutable index `idx`
(`if (i <= idx) throw new Error("next() called multiple times")`).

Middlewares here are described by the shape of their interaction with
`next`; the transforms applied to the envelope are irrelevant to the
dispatch-control claims, so the action language records only whether the
middleware passes, drops, throws before or after `next`, or calls `next`
twice.  `PRun` is the mutable state of one dispatch: the `idx` guard, the
list of envelopes handed to the terminal step (the sink fan-out), and the
pending rejection (JavaScript exceptions unwind, but side effects that
already happened persist, hence state-plus-error rather than `Except`). -/

inductive MwAction where
  | pass        -- awaits next() once and returns
  | drop        -- returns without calling next()
  | throwBefore -- throws without calling next()
  | throwAfter  -- awaits next() once, then throws
  | callTwice   -- awaits next(), then awaits next() again
  deriving Repr, DecidableEq

structure PRun where
  idx : ℤ
  delivered : List Envelope
  err : Option String

/-- The `runner` closure of `compose`, mirrored over the action scripts.
`i` is the absolute middleware index, `suffix` the middlewares from `i` on.
A set error short-circuits further work exactly as an `await` re-throwing. -/
def runSuffix (e : Envelope) : List MwAction → ℕ → PRun → PRun
  | suffix, i, st =>
    if (i : ℤ) ≤ st.idx then { st with err := some "next() called multiple times" }
    else
      let st1 : PRun := { st with idx := (i : ℤ) }
      match suffix with
      | [] => { st1 with delivered := st1.delivered ++ [e] }
      | a :: rest =>
        match a with
        | .pass => runSuffix e rest (i + 1) st1
        | .drop => st1
        | .throwBefore => { st1 with err := some "mw threw" }
        | .throwAfter =>
          let st2 := runSuffix e rest (i + 1) st1
          if st2.err.isSome then st2 else { st2 with err := some "mw threw" }
        | .callTwice =>
          let st2 := runSuffix e rest (i + 1) st1
          if st2.err.isSome then st2 else runSuffix e rest (i + 1) st2

/-- `Pipeline.dispatch`: run the composed chain from index 0 with `idx = -1`.
The resulting `err` component is the rejection (if any) of the promise
returned by `dispatch`. -/
def dispatchRun (mws : List MwAction) (e : Envelope) : PRun :=
  runSuffix e mws 0 ⟨-1, [], none⟩

/-- The facade's `emit` (src/core/telemetry.ts): `void pipeline.dispatch(entry)`.
`dispatch` is an `async` function, so a middleware throw becomes a rejection
of its promise, never a synchronous exception, and `void` discards that
promise.  Hence the caller-visible exception is always absent, and a
middleware failure survives only as the unobserved rejection. -/
structure EmitResult where
  callerException : Option String
  unobservedRejection : Option String
  delivered : List Envelope

def emitRun (mws : List MwAction) (e : Envelope) : EmitResult :=
  { callerException := none
    unobservedRejection := (dispatchRun mws e).err
    delivered := (dispatchRun mws e).delivered }

/-! ## Terminal sink fan-out (src/core/pipeline.ts, `dispatch`'s `terminal`)

```
await Promise.allSettled(this.transports.map((t) => Promise.resolve(t(entry))))
```

`Array.prototype.map` evaluates `t(entry)` synchronously in order; a sink
that throws synchronously aborts the `map` before `Promise.allSettled` is
ever reached, while a sink that returns a rejected promise is wrapped and
settled.  A sink's behaviour on an envelope is `ok` (fulfilled), `rejects`
(returns a rejected promise) or `throwsSync` (throws synchronously). -/

inductive SinkBeh where
  | ok
  | rejects (msg : String)
  | throwsSync (msg : String)
  deriving Repr, DecidableEq

inductive Settled where
  | fulfilled
  | rejected (msg : String)
  deriving Repr, DecidableEq

/-- The `map` phase: returns how many sinks were invoked (received the
envelope), the promises produced so far, and the synchronous exception that
aborted the map, if any. -/
def mapResolvePhase : List SinkBeh → ℕ × List Settled × Option String
  | [] => (0, [], none)
  | .throwsSync m :: _ => (1, [], some m)
  | .ok :: rest =>
    let (n, l, ex) := mapResolvePhase rest
    (n + 1, .fulfilled :: l, ex)
  | .rejects m :: rest =>
    let (n, l, ex) := mapResolvePhase rest
    (n + 1, .rejected m :: l, ex)

/-- The whole terminal step: if the map phase threw, `Promise.allSettled` is
never called and the terminal's promise rejects; otherwise `allSettled`
resolves with every sink's outcome and never rejects.  The first component
counts the sinks that received the envelope. -/
def terminalFanout (sinks : List (Envelope → SinkBeh)) (e : Envelope) :
    ℕ × Except String (List Settled) :=
  let (n, l, ex) := mapResolvePhase (sinks.map (fun t => t e))
  match ex with
  | some m => (n, .error m)
  | none => (n, .ok l)

/-! ## Pipeline lemmas and claims C1, C2, C8 -/

/-- A concrete envelope used in closed counterexamples and witnesses. -/
def env0 : Envelope := ⟨0, [], .event ⟨"e", none⟩⟩

/-- Walking a prefix of plain `pass` middlewares just advances the index. -/
theorem runSuffix_replicate_pass (e : Envelope) (suf : List MwAction)
    (d : List Envelope) :
    ∀ (n i : ℕ),
      runSuffix e (List.replicate n .pass ++ suf) i ⟨(i : ℤ) - 1, d, none⟩ =
        runSuffix e suf (i + n) ⟨((i : ℤ) + n) - 1, d, none⟩ := by
  intro n
  induction n with
  | zero => intro i; simp
  | succ n ih =>
    intro i
    rw [List.replicate_succ, List.cons_append, runSuffix]
    have hguard : ¬ ((i : ℤ) ≤ (i : ℤ) - 1) := by omega
    simp only [hguard, if_false]
    have := ih (i + 1)
    simp only [Nat.cast_add, Nat.cast_one] at this ⊢
    rw [show ((i : ℤ) + 1 - 1) = (i : ℤ) from by ring] at this
    rw [this]
    ring_nf

/-- `runner` never decreases the `idx` guard: a successful (rejection-free)
run from index `i` leaves `idx ≥ i`. -/
theorem runSuffix_idx_ge (e : Envelope) :
    ∀ (suf : List MwAction) (i : ℕ) (st : PRun),
      st.err = none → (runSuffix e suf i st).err = none →
      (i : ℤ) ≤ (runSuffix e suf i st).idx := by
  intro suf
  induction suf with
  | nil =>
    intro i st h0 h1
    rw [runSuffix] at *
    by_cases hg : (i : ℤ) ≤ st.idx
    · simp [hg] at h1
    · simp [hg]
  | cons a rest ih =>
    intro i st h0 h1
    rw [runSuffix] at h1 ⊢
    by_cases hg : (i : ℤ) ≤ st.idx
    · simp [hg] at h1
    · simp only [hg, if_false] at h1 ⊢
      cases a with
      | pass =>
        have := ih (i + 1) { st with idx := (i : ℤ) } (by simpa using h0) (by simpa using h1)
        push_cast at this ⊢
        omega
      | drop => simp
      | throwBefore => simp at h1
      | throwAfter =>
        set st2 := runSuffix e rest (i + 1) { st with idx := (i : ℤ) } with hst2
        by_cases h2 : st2.err.isSome
        · simp only [h2, if_true] at h1
          simp only [Option.isSome_iff_exists] at h2
          obtain ⟨m, hm⟩ := h2
          rw [hm] at h1; cases h1
        · simp only [h2, if_false] at h1
          simp at h1
      | callTwice =>
        set st2 := runSuffix e rest (i + 1) { st with idx := (i : ℤ) } with hst2
        by_cases h2 : st2.err.isSome
        · simp only [h2, if_true] at h1 ⊢
          simp only [Option.isSome_iff_exists] at h2
          obtain ⟨m, hm⟩ := h2
          rw [hm] at h1; cases h1
        · simp only [h2, if_false] at h1 ⊢
          have h2n : st2.err = none := by
            cases hs : st2.err
            · rfl
            · rw [hs] at h2; simp at h2
          have := ih (i + 1) st2 h2n h1
          push_cast at this ⊢
          omega

/-- Claim C1, as stated, is false: the pipeline does not catch a middleware
throw.  With a single middleware that throws before calling `next`, the
promise returned by `Pipeline.dispatch` rejects with the middleware's error
(nothing in `compose` or `dispatch` catches it, and no error hook exists). -/
theorem dispatch_throw_escapes_pipeline :
    (dispatchRun [.throwBefore] env0).err = some "mw threw" := by
  rw [dispatchRun, runSuffix]
  norm_num

/-- Amended C1: when a middleware throws before invoking `next`, the
rejection propagates out of `Pipeline.dispatch` (it is not caught there),
the envelope is dropped (no terminal delivery), and the facade's `emit`
discards the rejected promise via `void`, so no exception ever propagates to
the application caller — for any middleware chain whatsoever. -/
theorem dispatch_throw_dropped_and_swallowed_at_emit (n : ℕ)
    (rest : List MwAction) (e : Envelope) :
    ((dispatchRun (List.replicate n .pass ++ .throwBefore :: rest) e).err =
        some "mw threw" ∧
      (dispatchRun (List.replicate n .pass ++ .throwBefore :: rest) e).delivered = []) ∧
    ∀ mws : List MwAction, (emitRun mws e).callerException = none := by
  constructor
  · have h0 := runSuffix_replicate_pass e (.throwBefore :: rest) [] n 0
    rw [dispatchRun]
    norm_num at h0
    rw [show (⟨-1, [], none⟩ : PRun) = ⟨(0 : ℤ) - 1, [], none⟩ from by norm_num] at h0 ⊢
    rw [h0, runSuffix]
    have hguard : ¬ ((n : ℤ) ≤ (n : ℤ) - 1) := by omega
    simp [hguard]
  · intro mws
    rfl

/-- Claim C2's failing input, evaluated on the model of the terminal step.
First conjunct: with two sinks where the first throws synchronously, only
one sink receives the envelope (`Array.map` aborts before
`Promise.allSettled` runs) and the sink error escapes to the middleware
chain as a rejection of the terminal step.  Second conjunct: a sink that
returns a rejected promise is properly absorbed — both sinks receive the
envelope and the terminal step resolves. -/
theorem sink_sync_throw_breaks_fanout :
    terminalFanout [fun _ => .throwsSync "sink threw", fun _ => .ok] env0 =
      (1, .error "sink threw") ∧
    terminalFanout [fun _ => .rejects "sink rejected", fun _ => .ok] env0 =
      (2, .ok [.rejected "sink rejected", .fulfilled]) := by
  exact ⟨rfl, rfl⟩

/-- Claim C8: whenever the chain reaches a middleware that invokes `next`
twice and the first invocation runs to completion, the second invocation is
refused by the dispatcher with the observable error
"next() called multiple times"; and a chain of middlewares that each invoke
`next` exactly once delivers the envelope to the terminal step exactly once. -/
theorem double_next_refused (n : ℕ) (rest : List MwAction) (e : Envelope)
    (h : (runSuffix e rest (n + 1) ⟨(n : ℤ), [], none⟩).err = none) :
    (dispatchRun (List.replicate n .pass ++ .callTwice :: rest) e).err =
      some "next() called multiple times" ∧
    ∀ m : ℕ, dispatchRun (List.replicate m .pass) e = ⟨(m : ℤ), [e], none⟩ := by
  constructor
  · have h0 := runSuffix_replicate_pass e (.callTwice :: rest) [] n 0
    rw [dispatchRun]
    norm_num at h0
    rw [show (⟨-1, [], none⟩ : PRun) = ⟨(0 : ℤ) - 1, [], none⟩ from by norm_num] at h0 ⊢
    rw [h0, runSuffix]
    have hguard : ¬ ((n : ℤ) ≤ (n : ℤ) - 1) := by omega
    simp only [hguard, if_false]
    set st2 := runSuffix e rest (n + 1) ⟨(n : ℤ), [], none⟩ with hst2
    have h2 : st2.err.isSome = false := by rw [h]; rfl
    simp only [h2, Bool.false_eq_true, if_false]
    rw [runSuffix]
    have hidx : ((n : ℤ) + 1) ≤ st2.idx := by
      have := runSuffix_idx_ge e rest (n + 1) ⟨(n : ℤ), [], none⟩ rfl h
      push_cast at this
      exact this
    have hguard2 : ((n + 1 : ℕ) : ℤ) ≤ st2.idx := by push_cast; exact hidx
    rw [if_pos hguard2]
  · intro m
    have h0 := runSuffix_replicate_pass e [] [] m 0
    rw [dispatchRun]
    norm_num at h0
    rw [show (⟨-1, [], none⟩ : PRun) = ⟨(0 : ℤ) - 1, [], none⟩ from by norm_num] at h0 ⊢
    rw [h0, runSuffix]
    have hguard : ¬ ((m : ℤ) ≤ (m : ℤ) - 1) := by omega
    simp [hguard]

/-- Closed witness for `double_next_refused` at a one-middleware chain. -/
theorem double_next_refused_witness :
    (runSuffix env0 [] (0 + 1) ⟨((0 : ℕ) : ℤ), [], none⟩).err = none ∧
    (dispatchRun (List.replicate 0 .pass ++ .callTwice :: []) env0).err =
      some "next() called multiple times" := by
  refine ⟨by rw [runSuffix]; norm_num, ?_⟩
  exact (double_next_refused 0 [] env0 (by rw [runSuffix]; norm_num)).1

/-! ## Secret middleware (src/middlewares/secret.ts)

`maskValueInPlace` recurses with an entry guard `if (depth > maxDepth) return`;
here `fuel = maxDepth + 1 - depth`, so `fuel = 0` is the depth cutoff and the
top-level call receives `maxDepth + 1`.  On the tree value model the
`WeakSet` cycle guard never fires (each node occurs once), so it is omitted.
Object fields whose (lower-cased) key matches are replaced wholesale by the
replacement string and never descended into; arrays are traversed
element-wise without replacing the elements themselves; primitives are left
alone (`typeof value !== "object"`). -/

def lowerStr (s : String) : String := ⟨s.data.map Char.toLower⟩

/-- JavaScript `String.prototype.includes` (substring containment). -/
def strIncludes (s pat : String) : Bool :=
  s.data.tails.any (fun t => pat.data.isPrefixOf t)

/-- `MaskOptions` with the defaults of src/middlewares/secret.ts; the
`paths` subset is represented by one flag per target. -/
structure MaskOptions where
  keys : List String
  replacement : String := "[MASKED]"
  matchSubstring : Bool := true
  maxDepth : ℕ := 20
  maskCtx : Bool := true
  maskLogData : Bool := true
  maskLogErr : Bool := true
  maskEventProps : Bool := true

/-- `shouldMaskKey` from `secret` (case-insensitive, substring or exact). -/
def shouldMaskKey (opts : MaskOptions) (key : String) : Bool :=
  let k := lowerStr key
  if opts.matchSubstring then
    (opts.keys.map lowerStr).any (fun t => strIncludes k t)
  else
    (opts.keys.map lowerStr).contains k

/-- `maskValueInPlace` on tree values. -/
def maskValue (m : String → Bool) (repl : String) : ℕ → JsTree → JsTree
  | 0, v => v
  | fuel + 1, .arr xs => .arr (xs.map (fun x => maskValue m repl fuel x))
  | fuel + 1, .obj fs =>
    .obj (fs.map (fun kv =>
      if m kv.1 then (kv.1, .vstr repl) else (kv.1, maskValue m repl fuel kv.2)))
  | _ + 1, v => v

/-- `maskValueInPlace` applied (at depth 0) to a string-keyed record such as
`entry.ctx`, `log.data` or `event.props`: one unfolding of `maskValue` at
fuel `maxDepth + 1` on an object node. -/
def maskTopObject (opts : MaskOptions) (fs : Ctx) : Ctx :=
  fs.map (fun kv =>
    if shouldMaskKey opts kv.1 then (kv.1, .vstr opts.replacement)
    else (kv.1, maskValue (shouldMaskKey opts) opts.replacement opts.maxDepth kv.2))

/-- JavaScript truthiness of a tree value (`entry.record.err &&` …). -/
def jsTruthy : JsTree → Bool
  | .vnull => false
  | .vundef => false
  | .vbool b => b
  | .vnum q => decide (q ≠ 0)
  | .vstr s => decide (s ≠ "")
  | .vbigint i => decide (i ≠ 0)
  | .vfunc => true
  | .arr _ => true
  | .obj _ => true

/-- The `secret` middleware body on an envelope.  It always calls `next`,
so its observable effect is this envelope transform. -/
def secretStep (opts : MaskOptions) (e : Envelope) : Envelope :=
  let ctx1 := if opts.maskCtx then maskTopObject opts e.ctx else e.ctx
  let record1 :=
    match e.record with
    | .log r =>
      let data1 := if opts.maskLogData then r.data.map (maskTopObject opts) else r.data
      let err1 :=
        if opts.maskLogErr then
          match r.err with
          | some v =>
            some (if jsTruthy v then
                maskValue (shouldMaskKey opts) opts.replacement (opts.maxDepth + 1) v
              else v)
          | none => none
        else r.err
      TelemetryRecord.log { r with data := data1, err := err1 }
    | .event r =>
      let props1 := if opts.maskEventProps then r.props.map (maskTopObject opts) else r.props
      TelemetryRecord.event { r with props := props1 }
  { e with ctx := ctx1, record := record1 }

theorem maskValue_idem (m : String → Bool) (repl : String) :
    ∀ (fuel : ℕ) (v : JsTree),
      maskValue m repl fuel (maskValue m repl fuel v) = maskValue m repl fuel v := by
  intro fuel
  induction fuel with
  | zero => intro v; rfl
  | succ fuel ih =>
    intro v
    cases v with
    | arr xs =>
      rw [maskValue, maskValue, List.map_map]
      congr 1
      refine List.map_congr_left ?_
      intro x _
      exact ih x
    | obj fs =>
      rw [maskValue, maskValue, List.map_map]
      congr 1
      refine List.map_congr_left ?_
      intro kv _
      by_cases hm : m kv.1
      · simp [hm]
      · simp [hm, ih kv.2]
    | vnull => rfl
    | vundef => rfl
    | vbool b => rfl
    | vnum q => rfl
    | vstr s => rfl
    | vbigint i => rfl
    | vfunc => rfl

theorem maskValue_truthy (m : String → Bool) (repl : String) (fuel : ℕ)
    (v : JsTree) : jsTruthy (maskValue m repl fuel v) = jsTruthy v := by
  cases fuel with
  | zero => rfl
  | succ fuel => cases v <;> rfl

theorem maskTopObject_idem (opts : MaskOptions) (fs : Ctx) :
    maskTopObject opts (maskTopObject opts fs) = maskTopObject opts fs := by
  rw [maskTopObject, maskTopObject, List.map_map]
  refine List.map_congr_left ?_
  intro kv _
  by_cases hm : shouldMaskKey opts kv.1
  · simp [hm]
  · simp [hm, maskValue_idem]

/-- Claim C9: the `secret` middleware is idempotent — masking an envelope
twice yields the same envelope as masking it once, for every configuration;
in particular a value already replaced by the replacement string maps to the
same replacement again and is never descended into (it is a string, hence a
leaf for the traversal). -/
theorem secret_idempotent (opts : MaskOptions) (e : Envelope) :
    secretStep opts (secretStep opts e) = secretStep opts e ∧
    ∀ fuel : ℕ,
      maskValue (shouldMaskKey opts) opts.replacement fuel (.vstr opts.replacement) =
        .vstr opts.replacement := by
  constructor
  · rw [secretStep, secretStep]
    cases e with
    | mk ts ctx record =>
      simp only
      congr 1
      · by_cases hc : opts.maskCtx
        · simp [hc, maskTopObject_idem]
        · simp [hc]
      · cases record with
        | log r =>
          simp only
          congr 1
          cases r with
          | mk level msg data err =>
            simp only
            congr 1
            · by_cases hd : opts.maskLogData
              · cases data with
                | none => simp [hd]
                | some d => simp [hd, maskTopObject_idem]
              · simp [hd]
            · by_cases he : opts.maskLogErr
              · cases err with
                | none => simp [he]
                | some v =>
                  by_cases hv : jsTruthy v
                  · simp only [he, if_true, hv]
                    rw [if_pos (by rw [maskValue_truthy]; exact hv)]
                    simp [maskValue_idem]
                  · simp [he, hv]
              · simp [he]
        | event r =>
          simp only
          congr 1
          cases r with
          | mk name props =>
            simp only
            congr 1
            by_cases hp : opts.maskEventProps
            · cases props with
              | none => simp [hp]
              | some p => simp [hp, maskTopObject_idem]
            · simp [hp]
  · intro fuel
    cases fuel <;> rfl

/-! ## Sample middleware (src/middlewares/sample.ts)

`hashToUnitInterval` is FNV-1a over the UTF-16 code units of the string
(`charCodeAt`), with `Math.imul` as 32-bit multiplication; all JavaScript
32-bit coercions (`^`, `Math.imul`, `>>> 0`) agree with arithmetic on
residues mod 2^32, so the hash state is a natural number below 2^32.
Rates are rationals (`NaN → 0` of `clamp01` cannot arise on ℚ).  Key values
returned by the `key` callback are strings or (integer-valued) numbers, and
`String(k)` of an integer is its decimal representation. -/

inductive KeyV where
  | str (s : String)
  | num (i : ℤ)

def keyToString : KeyV → String
  | .str s => s
  | .num i => toString i

/-- UTF-16 code units of one character (surrogate pair above U+FFFF). -/
def charUtf16 (c : Char) : List ℕ :=
  let n := c.toNat
  if n < 0x10000 then [n]
  else [0xD800 + (n - 0x10000) / 0x400, 0xDC00 + (n - 0x10000) % 0x400]

def utf16Units (s : String) : List ℕ :=
  (s.data.map charUtf16).flatten

/-- One FNV-1a round: `h ^= c; h = Math.imul(h, 0x01000193)`. -/
def fnv1aStep (h c : ℕ) : ℕ := ((h ^^^ c) * 0x01000193) % 2 ^ 32

/-- FNV-1a 32-bit over code units, offset basis 0x811c9dc5. -/
def fnv1a (units : List ℕ) : ℕ := units.foldl fnv1aStep 0x811c9dc5

/-- `hashToUnitInterval`: `(h >>> 0) / 2 ** 32 ∈ [0, 1)`. -/
def hashToUnitInterval (s : String) : ℚ := (fnv1a (utf16Units s) : ℚ) / 2 ^ 32

/-- `clamp01` from src/middlewares/sample.ts. -/
def clamp01 (n : ℚ) : ℚ := if n < 0 then 0 else if n > 1 then 1 else n

/-- `SampleConfig`: per-level log rates, per-name event rates (with `"*"`
wildcard looked up by name), optional deterministic key. -/
structure SampleConfig where
  log : LogLevel → Option ℚ
  event : String → Option ℚ
  key : Option (Envelope → Option KeyV)

/-- `getRate` from src/middlewares/sample.ts. -/
def getRate (e : Envelope) (logRates : LogLevel → Option ℚ)
    (eventRates : String → Option ℚ) : ℚ :=
  match e.record with
  | .log r => clamp01 ((logRates r.level).getD 1)
  | .event r =>
    match eventRates r.name with
    | some ex => clamp01 ex
    | none => clamp01 ((eventRates "*").getD 1)

/-- The `sample` middleware decision.  `rnd` is the value the injected RNG
would return; the second component counts how many times the RNG was
actually drawn.  `true` means the envelope passes (`next()` is called). -/
def sampleDecision (cfg : SampleConfig) (rnd : ℚ) (e : Envelope) : Bool × ℕ :=
  let rate := getRate e cfg.log cfg.event
  if rate ≥ 1 then (true, 0)
  else if rate ≤ 0 then (false, 0)
  else
    match cfg.key with
    | some pickKey =>
      match pickKey e with
      | some k => (decide (hashToUnitInterval (keyToString k) < rate), 0)
      | none => (decide (rnd < rate), 1)
    | none => (decide (rnd < rate), 1)

/-- Claim C5: with a configured key function returning a defined key and a
resolved rate strictly between 0 and 1, the decision is pass iff
FNV-1a(String(k)) / 2^32 < rate; the injected RNG is never drawn when the
key is defined; and any two envelopes producing the same key under the same
(fixed) rate receive the same keep/drop decision, whatever the RNG values. -/
theorem sample_keyed_deterministic (cfg : SampleConfig)
    (f : Envelope → Option KeyV) (hf : cfg.key = some f) (e : Envelope)
    (k : KeyV) (hk : f e = some k) (rnd : ℚ) :
    (0 < getRate e cfg.log cfg.event ∧ getRate e cfg.log cfg.event < 1 →
      (sampleDecision cfg rnd e).1 =
        decide ((fnv1a (utf16Units (keyToString k)) : ℚ) / 2 ^ 32 <
          getRate e cfg.log cfg.event)) ∧
    (sampleDecision cfg rnd e).2 = 0 ∧
    ∀ (e2 : Envelope) (rnd2 : ℚ), f e2 = some k →
      getRate e2 cfg.log cfg.event = getRate e cfg.log cfg.event →
      (sampleDecision cfg rnd2 e2).1 = (sampleDecision cfg rnd e).1 := by
  have hdec : ∀ (e3 : Envelope) (rnd3 : ℚ), f e3 = some k →
      getRate e3 cfg.log cfg.event = getRate e cfg.log cfg.event →
      sampleDecision cfg rnd3 e3 =
        (if getRate e cfg.log cfg.event ≥ 1 then (true, 0)
         else if getRate e cfg.log cfg.event ≤ 0 then (false, 0)
         else (decide (hashToUnitInterval (keyToString k) <
           getRate e cfg.log cfg.event), 0)) := by
    intro e3 rnd3 hk3 hr3
    rw [sampleDecision]
    simp only [hr3, hf, hk3]
  refine ⟨?_, ?_, ?_⟩
  · intro ⟨h0, h1⟩
    rw [hdec e rnd hk rfl]
    rw [if_neg (by exact not_le.mpr (by linarith)), if_neg (by exact not_le.mpr h0)]
    rfl
  · rw [hdec e rnd hk rfl]
    by_cases hge : getRate e cfg.log cfg.event ≥ 1
    · simp [hge]
    · by_cases hle : getRate e cfg.log cfg.event ≤ 0
      · simp [hge, hle]
      · simp [hge, hle]
  · intro e2 rnd2 hk2 hr2
    rw [hdec e2 rnd2 hk2 hr2, hdec e rnd hk rfl]

/-- A concrete sample configuration for the closed witness: event rate 1/2
for every name, key constantly "same". -/
def sampleCfg0 : SampleConfig :=
  ⟨fun _ => none, fun _ => some (1 / 2), some (fun _ => some (.str "same"))⟩

/-- Closed witness for `sample_keyed_deterministic`: at rate 1/2 and key
"same", the decision is the hash comparison, the RNG is never drawn, and an
envelope with a different timestamp and a different RNG value receives the
same decision. -/
theorem sample_keyed_deterministic_witness :
    ((0 : ℚ) < getRate env0 sampleCfg0.log sampleCfg0.event ∧
      getRate env0 sampleCfg0.log sampleCfg0.event < 1) ∧
    (sampleDecision sampleCfg0 0 env0).1 =
      decide ((fnv1a (utf16Units "same") : ℚ) / 2 ^ 32 <
        getRate env0 sampleCfg0.log sampleCfg0.event) ∧
    (sampleDecision sampleCfg0 0 env0).2 = 0 ∧
    (sampleDecision sampleCfg0 (37 / 100) ⟨1, [], .event ⟨"e", none⟩⟩).1 =
      (sampleDecision sampleCfg0 0 env0).1 := by
  have hrange : (0 : ℚ) < getRate env0 sampleCfg0.log sampleCfg0.event ∧
      getRate env0 sampleCfg0.log sampleCfg0.event < 1 := by
    constructor <;> norm_num [getRate, sampleCfg0, env0, clamp01]
  have h := sample_keyed_deterministic sampleCfg0 _ rfl env0 (.str "same") rfl 0
  exact ⟨hrange, h.1 hrange, h.2.1,
    h.2.2 ⟨1, [], .event ⟨"e", none⟩⟩ (37 / 100) rfl rfl⟩

/-! ## Rate-limit middleware (src/middlewares/rateLimit.ts)

Token buckets in an insertion-ordered map, keyed by
`scope + "::" + ruleKey`.  Times and token counts are rationals; `t` is
the value the injected `now()` returns for the step.  The ordered `Map`
becomes an association list whose append end is the map's insertion end. -/

structure RateLimitWindow where
  limit : ℚ
  intervalMs : ℚ
  burst : Option ℚ

structure Bucket where
  tokens : ℚ
  updatedAt : ℚ
  lastSeen : ℚ

structure RateLimitOptions where
  log : LogLevel → Option RateLimitWindow
  event : String → Option RateLimitWindow
  defaultLog : Option RateLimitWindow
  defaultEvent : Option RateLimitWindow
  key : Option (Envelope → Option KeyV)
  maxBuckets : ℕ := 10000
  bucketTtlMs : ℚ := 600000

/-- `pickRule`: per-level / per-name rule with `"*"` wildcard and defaults. -/
def pickRule (e : Envelope) (o : RateLimitOptions) : Option RateLimitWindow :=
  match e.record with
  | .log r =>
    match o.log r.level with
    | some w => some w
    | none => o.defaultLog
  | .event r =>
    match o.event r.name with
    | some w => some w
    | none =>
      match o.event "*" with
      | some w => some w
      | none => o.defaultEvent

/-- `createBucket`: initial tokens `cap = Math.max(0, burst ?? limit)`. -/
def createBucket (rule : RateLimitWindow) (t : ℚ) : Bucket :=
  ⟨max 0 (rule.burst.getD rule.limit), t, t⟩

/-- `refill`: clamp-guarded token refill. -/
def refill (b : Bucket) (rule : RateLimitWindow) (t : ℚ) : Bucket :=
  let cap := max 0 (rule.burst.getD rule.limit)
  let lim := max 0 rule.limit
  let intv := max 1 rule.intervalMs
  let rate := lim / intv
  let dt := t - b.updatedAt
  if dt ≤ 0 ∨ rate ≤ 0 then { b with updatedAt := t }
  else { b with tokens := min cap (b.tokens + dt * rate), updatedAt := t }

/-- Ordered-map lookup on an association list (`Map.get`). -/
def lookupEntry {β : Type} (l : List (String × β)) (id : String) : Option β :=
  (l.find? (fun p => p.1 == id)).map (fun p => p.2)

/-- Ordered-map delete (`Map.delete`), preserving the order of survivors. -/
def eraseEntry {β : Type} (l : List (String × β)) (id : String) :
    List (String × β) :=
  l.filter (fun p => !(p.1 == id))

/-- `cleanup`: drop TTL-stale buckets, then evict oldest beyond `maxBuckets`. -/
def rlCleanup (l : List (String × Bucket)) (now ttl : ℚ) (maxB : ℕ) :
    List (String × Bucket) :=
  let kept := l.filter (fun p => !(decide (now - p.2.lastSeen > ttl)))
  kept.drop (kept.length - maxB)

structure RLState where
  buckets : List (String × Bucket)
  ops : ℕ

/-- `${scope}::${ruleKey}` of src/middlewares/rateLimit.ts. -/
def bucketIdOf (o : RateLimitOptions) (e : Envelope) : String :=
  let scope := match o.key with
    | none => "global"
    | some f =>
      match f e with
      | none => "global"
      | some k => keyToString k
  let ruleKey := match e.record with
    | .log r => "log:" ++ r.level.toString
    | .event r => "event:" ++ r.name
  scope ++ "::" ++ ruleKey

/-- One application of the `rateLimit` middleware to an envelope at time
`t`.  `true` means `next()` is called (the envelope passes). -/
def rateLimitStep (o : RateLimitOptions) (st : RLState) (e : Envelope)
    (t : ℚ) : Bool × RLState :=
  match pickRule e o with
  | none => (true, st)
  | some rule =>
    let bucketId := bucketIdOf o e
    let ops1 := st.ops + 1
    let bk0 := if ops1 % 200 == 0 then
        rlCleanup st.buckets t o.bucketTtlMs o.maxBuckets
      else st.buckets
    let bk1 := match lookupEntry bk0 bucketId with
      | some b => if t - b.lastSeen > o.bucketTtlMs then eraseEntry bk0 bucketId else bk0
      | none => bk0
    let b0 := (lookupEntry bk1 bucketId).getD (createBucket rule t)
    let b1 : Bucket := { b0 with lastSeen := t }
    let b2 := refill b1 rule t
    if b2.tokens ≥ 1 then
      (true, ⟨eraseEntry bk1 bucketId ++ [(bucketId, { b2 with tokens := b2.tokens - 1 })], ops1⟩)
    else
      (false, ⟨eraseEntry bk1 bucketId ++ [(bucketId, b2)], ops1⟩)

/-- `n` emits of the same envelope at the same injected time `t`, from a
fresh middleware instance; returns the final state and the pass decisions. -/
def runRateLimit (o : RateLimitOptions) (e : Envelope) (t : ℚ) :
    ℕ → RLState × List Bool
  | 0 => (⟨[], 0⟩, [])
  | n + 1 =>
    let p := runRateLimit o e t n
    let q := rateLimitStep o p.1 e t
    (q.2, p.2 ++ [q.1])

theorem rlCleanup_singleton (id : String) (tau t ttl : ℚ) (maxB : ℕ)
    (httl : 0 ≤ ttl) (hmaxB : 1 ≤ maxB) :
    rlCleanup [(id, ⟨tau, t, t⟩)] t ttl maxB = [(id, ⟨tau, t, t⟩)] := by
  rw [rlCleanup]
  have h2 : ¬ (ttl < t - t) := by linarith
  simp [List.filter_cons, h2, httl, Nat.sub_eq_zero_of_le hmaxB]

theorem refill_now (b : Bucket) (rule : RateLimitWindow) (hb : b.updatedAt = b.lastSeen) :
    refill b rule b.lastSeen = { b with updatedAt := b.lastSeen } := by
  rw [refill]
  have h1 : b.lastSeen - b.updatedAt ≤ 0 := by rw [hb]; linarith
  simp [h1]

theorem rateLimitStep_singleton (o : RateLimitOptions) (e : Envelope)
    (w : RateLimitWindow) (hrule : pickRule e o = some w)
    (httl : 0 ≤ o.bucketTtlMs) (hmaxB : 1 ≤ o.maxBuckets) (t tau : ℚ) (k : ℕ) :
    rateLimitStep o ⟨[(bucketIdOf o e, ⟨tau, t, t⟩)], k⟩ e t =
      (decide (tau ≥ 1),
        ⟨[(bucketIdOf o e, ⟨if tau ≥ 1 then tau - 1 else tau, t, t⟩)], k + 1⟩) := by
  rw [rateLimitStep]
  simp only [hrule]
  rw [rlCleanup_singleton _ _ _ _ _ httl hmaxB, ite_self]
  have hlook : lookupEntry [(bucketIdOf o e, (⟨tau, t, t⟩ : Bucket))] (bucketIdOf o e) =
      some ⟨tau, t, t⟩ := by
    simp [lookupEntry, List.find?]
  have hstale : ¬ (t - t > o.bucketTtlMs) := by linarith
  have herase : eraseEntry [(bucketIdOf o e, (⟨tau, t, t⟩ : Bucket))] (bucketIdOf o e) = [] := by
    simp [eraseEntry, List.filter_cons]
  have hrefill := refill_now ⟨tau, t, t⟩ w rfl
  simp only [hlook, hstale, if_false, Option.getD_some, herase, hrefill]
  by_cases hpass : (1 : ℚ) ≤ tau
  · simp [ge_iff_le, hpass]
  · simp [ge_iff_le, hpass]

theorem rateLimitStep_fresh (o : RateLimitOptions) (e : Envelope)
    (w : RateLimitWindow) (hrule : pickRule e o = some w) (t : ℚ) :
    rateLimitStep o ⟨[], 0⟩ e t =
      (decide (max 0 (w.burst.getD w.limit) ≥ 1),
        ⟨[(bucketIdOf o e,
            ⟨if max 0 (w.burst.getD w.limit) ≥ 1 then max 0 (w.burst.getD w.limit) - 1
              else max 0 (w.burst.getD w.limit), t, t⟩)], 1⟩) := by
  rw [rateLimitStep]
  simp only [hrule]
  have hmod : ((0 + 1) % 200 == 0) = false := by decide
  have hlook : lookupEntry ([] : List (String × Bucket)) (bucketIdOf o e) = none := by
    simp [lookupEntry]
  have herase : eraseEntry ([] : List (String × Bucket)) (bucketIdOf o e) = [] := rfl
  have hrefill := refill_now ⟨max 0 (w.burst.getD w.limit), t, t⟩ w rfl
  simp only [hmod, Bool.false_eq_true, if_false, hlook, Option.getD_none, createBucket,
    herase, hrefill]
  by_cases hpass : (1 : ℚ) ≤ max 0 (w.burst.getD w.limit)
  · simp [ge_iff_le, hpass]
  · simp [ge_iff_le, hpass]

theorem runRateLimit_invariant (o : RateLimitOptions) (e : Envelope)
    (w : RateLimitWindow) (C : ℕ) (hrule : pickRule e o = some w)
    (hcap : max 0 (w.burst.getD w.limit) = (C : ℚ))
    (httl : 0 ≤ o.bucketTtlMs) (hmaxB : 1 ≤ o.maxBuckets) (t : ℚ) :
    ∀ k : ℕ, 1 ≤ k →
      runRateLimit o e t k =
        (⟨[(bucketIdOf o e, ⟨(C : ℚ) - min k C, t, t⟩)], k⟩,
          List.replicate (min k C) true ++ List.replicate (k - C) false) := by
  intro k
  induction k with
  | zero => intro h; omega
  | succ k ih =>
    intro _
    rcases Nat.eq_zero_or_pos k with hk0 | hkpos
    · subst hk0
      have h1 : runRateLimit o e t 1 =
          ((rateLimitStep o ⟨[], 0⟩ e t).2,
            [] ++ [(rateLimitStep o ⟨[], 0⟩ e t).1]) := rfl
      rw [h1, rateLimitStep_fresh o e w hrule t]
      simp only [hcap]
      by_cases hpass : (1 : ℚ) ≤ (C : ℚ)
      · have hC1 : 1 ≤ C := by exact_mod_cast hpass
        have hmin : min 1 C = 1 := by omega
        have hsub : 1 - C = 0 := by omega
        simp [ge_iff_le, hpass, hmin, hsub]
      · have hC0 : C = 0 := by
          by_contra hne
          exact hpass (by exact_mod_cast Nat.one_le_iff_ne_zero.mpr hne)
        subst hC0
        simp [ge_iff_le, hpass]
    · have h1 : runRateLimit o e t (k + 1) =
          ((rateLimitStep o (runRateLimit o e t k).1 e t).2,
            (runRateLimit o e t k).2 ++ [(rateLimitStep o (runRateLimit o e t k).1 e t).1]) := rfl
      rw [h1, ih hkpos]
      dsimp only
      rw [rateLimitStep_singleton o e w hrule httl hmaxB t _ k]
      by_cases hlt : k < C
      · have hmink : min k C = k := by omega
        have hpass : ((C : ℚ) - ((min k C : ℕ) : ℚ)) ≥ 1 := by
          rw [hmink]
          have hc : (k : ℚ) + 1 ≤ (C : ℚ) := by exact_mod_cast hlt
          linarith
        have hmin1 : min (k + 1) C = min k C + 1 := by omega
        have hsub1 : k + 1 - C = 0 := by omega
        have hsub0 : k - C = 0 := by omega
        have htok : (C : ℚ) - ((min k C : ℕ) : ℚ) - 1 = (C : ℚ) - ((min (k + 1) C : ℕ) : ℚ) := by
          rw [hmin1]; push_cast; ring
        rw [if_pos hpass, decide_eq_true hpass, htok, hsub1, hsub0, hmin1,
          List.replicate_succ' (min k C)]
        simp [List.append_assoc]
      · have hminC : min k C = C := by omega
        have hfail : ¬ (((C : ℚ) - ((min k C : ℕ) : ℚ)) ≥ 1) := by
          rw [hminC]
          norm_num
        have hmin1 : min (k + 1) C = min k C := by omega
        have hsub1 : k + 1 - C = (k - C) + 1 := by omega
        rw [if_neg hfail, decide_eq_false hfail, hmin1, hsub1,
          List.replicate_succ' (k - C)]
        simp [List.append_assoc]

/-- Claim C3 as stated is false: `createBucket` clamps the capacity at 0,
so for the rule `{limit: 1, intervalMs: 1000, burst: -2}` the bucket is
created with `tokens = 0`, not `tokens = burst ?? limit = -2`. -/
theorem rateLimit_create_clamps_negative_burst :
    (createBucket ⟨1, 1000, some (-2)⟩ 0).tokens = 0 ∧
    ((⟨1, 1000, some (-2)⟩ : RateLimitWindow).burst.getD
        (⟨1, 1000, some (-2)⟩ : RateLimitWindow).limit) = -2 ∧
    (0 : ℚ) ≠ -2 := by
  refine ⟨?_, rfl, by norm_num⟩
  rw [createBucket]
  norm_num

/-- Amended C3: a bucket is created with
`tokens = cap = max(0, burst ?? limit)`; tokens refill by `Δt · rate` (with
`rate = max(0,limit)/max(1,intervalMs)`) clamped to `cap`, and only when
`Δt > 0` and `rate > 0`; an envelope passes iff the refilled tokens are ≥ 1
(decrementing by one) and is dropped silently otherwise.  Hence from a
freshly created bucket of capacity `C`, the first `C` envelopes with zero
elapsed time all pass and the `(C+1)`-th with zero elapsed time drops. -/
theorem rateLimit_burst_amended (o : RateLimitOptions) (e : Envelope)
    (w : RateLimitWindow) (C : ℕ) (hrule : pickRule e o = some w)
    (hcap : max 0 (w.burst.getD w.limit) = (C : ℚ))
    (httl : 0 ≤ o.bucketTtlMs) (hmaxB : 1 ≤ o.maxBuckets) (t : ℚ) :
    (∀ (w2 : RateLimitWindow) (t2 : ℚ),
      (createBucket w2 t2).tokens = max 0 (w2.burst.getD w2.limit)) ∧
    (runRateLimit o e t (C + 1)).2 = List.replicate C true ++ [false] := by
  constructor
  · intro w2 t2
    rfl
  · rw [runRateLimit_invariant o e w C hrule hcap httl hmaxB t (C + 1) (by omega)]
    have h1 : min (C + 1) C = C := by omega
    have h2 : C + 1 - C = 1 := by omega
    simp [h1, h2]

/-- Concrete configuration for the closed rate-limit witness: every event
is ruled by `{limit: 2, intervalMs: 1000}` with default bookkeeping. -/
def rlCfg0 : RateLimitOptions :=
  { log := fun _ => none
    event := fun _ => some ⟨2, 1000, none⟩
    defaultLog := none
    defaultEvent := none
    key := none }

/-- Closed witness for `rateLimit_burst_amended`: capacity 2, three emits
at injected time 0 — pass, pass, drop. -/
theorem rateLimit_burst_amended_witness :
    (runRateLimit rlCfg0 env0 0 (2 + 1)).2 = List.replicate 2 true ++ [false] := by
  exact (rateLimit_burst_amended rlCfg0 env0 ⟨2, 1000, none⟩ 2 rfl (by norm_num)
    (by norm_num [rlCfg0]) (by norm_num [rlCfg0]) 0).2


/-! ## Dedupe middleware (src/middlewares/dedupe.ts)

TTL-bounded LRU cache in an insertion-ordered map, keyed by
`scope + "::" + fingerprint`.  The middleware only consumes the entry
through the injected `fingerprint` and `key` callbacks, so the step
function is generic in the entry type. -/

structure CacheEntry where
  expiresAt : ℚ
  lastSeen : ℚ

structure DedupeOptions (α : Type) where
  ttlMs : ℚ := 10000
  maxSize : ℕ := 10000
  key : Option (α → Option KeyV)
  fingerprint : α → String
  cleanupEvery : ℕ := 200
  maxFingerprintLength : ℕ := 2048

structure DState where
  cache : List (String × CacheEntry)
  ops : ℕ

/-- `evictLRU`: delete from the front while the size exceeds `maxSize`. -/
def evictLRU (cache : List (String × CacheEntry)) (maxSize : ℕ) :
    List (String × CacheEntry) :=
  cache.drop (cache.length - maxSize)

/-- `cleanup`: remove entries with `t > expiresAt`, then evict to `maxSize`. -/
def dedupeCleanup (cache : List (String × CacheEntry)) (t : ℚ) (maxSize : ℕ) :
    List (String × CacheEntry) :=
  let kept := cache.filter (fun p => !(decide (t > p.2.expiresAt)))
  if maxSize < kept.length then evictLRU kept maxSize else kept

/-- `${scope}::${fp}` with the fingerprint truncated to
`maxFingerprintLength` characters. -/
def dedupeIdOf {α : Type} (o : DedupeOptions α) (entry : α) : String :=
  let scope := match o.key with
    | none => "global"
    | some f =>
      match f entry with
      | none => "global"
      | some k => keyToString k
  let fp0 := o.fingerprint entry
  let fp := if o.maxFingerprintLength < fp0.length then fp0.take o.maxFingerprintLength
    else fp0
  scope ++ "::" ++ fp

/-- The lookup/insert part of the middleware body (after the periodic
cleanup): pass/drop decision plus new cache.  `touchLRU` is delete-then-
append, i.e. re-insertion at the end of the ordered map. -/
def dedupeCore {α : Type} (o : DedupeOptions α)
    (cache : List (String × CacheEntry)) (t : ℚ) (entry : α) :
    Bool × List (String × CacheEntry) :=
  let id := dedupeIdOf o entry
  match lookupEntry cache id with
  | some ce =>
    if t < ce.expiresAt then
      (false, eraseEntry cache id ++ [(id, ⟨ce.expiresAt, t⟩)])
    else
      (true, eraseEntry cache id ++ [(id, ⟨t + o.ttlMs, t⟩)])
  | none =>
    let c1 := eraseEntry cache id ++ [(id, ⟨t + o.ttlMs, t⟩)]
    (true, if o.maxSize < c1.length then evictLRU c1 o.maxSize else c1)

/-- One application of the `dedupe` middleware at injected time `t`:
increment `ops`, run the periodic cleanup when due, then the core. -/
def dedupeStep {α : Type} (o : DedupeOptions α) (st : DState) (t : ℚ)
    (entry : α) : Bool × DState :=
  let ops1 := st.ops + 1
  let cache0 := if ops1 % o.cleanupEvery == 0 then dedupeCleanup st.cache t o.maxSize
    else st.cache
  let r := dedupeCore o cache0 t entry
  (r.1, ⟨r.2, ops1⟩)

theorem findEntry_eq_none {β : Type} (l : List (String × β)) (id : String)
    (h : lookupEntry l id = none) :
    List.find? (fun p => p.1 == id) l = none := by
  rw [lookupEntry] at h
  cases hc : List.find? (fun p => p.1 == id) l
  · rfl
  · rw [hc] at h
    cases h

theorem lookupEntry_erase_self {β : Type} (l : List (String × β)) (id : String) :
    lookupEntry (eraseEntry l id) id = none := by
  have h : List.find? (fun p => p.1 == id) (eraseEntry l id) = none := by
    rw [List.find?_eq_none]
    intro x hx
    have hmem := List.of_mem_filter hx
    simpa using hmem
  rw [lookupEntry, h]
  rfl

theorem lookupEntry_append_last {β : Type} (l : List (String × β)) (id : String)
    (x : β) (h : lookupEntry l id = none) :
    lookupEntry (l ++ [(id, x)]) id = some x := by
  rw [lookupEntry, List.find?_append, findEntry_eq_none l id h]
  simp [List.find?]

theorem lookupEntry_drop_none {β : Type} (l : List (String × β)) (id : String)
    (n : ℕ) (h : lookupEntry l id = none) : lookupEntry (l.drop n) id = none := by
  have hf : List.find? (fun p => p.1 == id) (l.drop n) = none := by
    rw [List.find?_eq_none]
    have h0 := findEntry_eq_none l id h
    rw [List.find?_eq_none] at h0
    intro x hx
    exact h0 x (List.mem_of_mem_drop hx)
  rw [lookupEntry, hf]
  rfl

/-- Claim C4: per-envelope dedupe semantics.  With `id = scope::fingerprint`:
if `id` is absent the envelope passes and `{expiresAt = now + ttlMs}` is
inserted (still present afterwards whenever `maxSize ≥ 1`); if present and
`now < expiresAt` the envelope is dropped, `lastSeen` is updated and the
entry moves to the end; if present and `now ≥ expiresAt` the envelope
passes and `expiresAt` is refreshed to `now + ttlMs`.  Consequently, with
`ttlMs = 1000` (and default `cleanupEvery`/`maxSize`), a first emit at time
0 passes, an identical record at time 999 is dropped, and at time 1000 it
passes again. -/
theorem dedupe_ttl_semantics {α : Type} (o : DedupeOptions α) (t : ℚ) (entry : α) :
    (∀ cache, lookupEntry cache (dedupeIdOf o entry) = none → 1 ≤ o.maxSize →
      (dedupeCore o cache t entry).1 = true ∧
      lookupEntry (dedupeCore o cache t entry).2 (dedupeIdOf o entry) =
        some ⟨t + o.ttlMs, t⟩) ∧
    (∀ cache ce, lookupEntry cache (dedupeIdOf o entry) = some ce →
      t < ce.expiresAt →
      dedupeCore o cache t entry =
        (false, eraseEntry cache (dedupeIdOf o entry) ++
          [(dedupeIdOf o entry, ⟨ce.expiresAt, t⟩)])) ∧
    (∀ cache ce, lookupEntry cache (dedupeIdOf o entry) = some ce →
      ce.expiresAt ≤ t →
      dedupeCore o cache t entry =
        (true, eraseEntry cache (dedupeIdOf o entry) ++
          [(dedupeIdOf o entry, ⟨t + o.ttlMs, t⟩)])) ∧
    (o.ttlMs = 1000 → o.cleanupEvery = 200 → o.maxSize = 10000 →
      ((dedupeStep o ⟨[], 0⟩ 0 entry).1,
        (dedupeStep o (dedupeStep o ⟨[], 0⟩ 0 entry).2 999 entry).1,
        (dedupeStep o (dedupeStep o (dedupeStep o ⟨[], 0⟩ 0 entry).2 999 entry).2
            1000 entry).1) =
      (true, false, true)) := by
  refine ⟨?_, ?_, ?_, ?_⟩
  · intro cache hnone hmax
    have hcore : dedupeCore o cache t entry =
        (true,
          if o.maxSize < (eraseEntry cache (dedupeIdOf o entry) ++
              [(dedupeIdOf o entry, (⟨t + o.ttlMs, t⟩ : CacheEntry))]).length then
            evictLRU (eraseEntry cache (dedupeIdOf o entry) ++
              [(dedupeIdOf o entry, (⟨t + o.ttlMs, t⟩ : CacheEntry))]) o.maxSize
          else eraseEntry cache (dedupeIdOf o entry) ++
            [(dedupeIdOf o entry, (⟨t + o.ttlMs, t⟩ : CacheEntry))]) := by
      rw [dedupeCore]
      simp only [hnone]
    rw [hcore]
    refine ⟨rfl, ?_⟩
    set id := dedupeIdOf o entry with hid
    set E := eraseEntry cache id with hE
    have hners : lookupEntry E id = none := lookupEntry_erase_self cache id
    by_cases hev : o.maxSize < (E ++ [(id, (⟨t + o.ttlMs, t⟩ : CacheEntry))]).length
    · rw [if_pos hev, evictLRU]
      have hlen : (E ++ [(id, (⟨t + o.ttlMs, t⟩ : CacheEntry))]).length = E.length + 1 := by
        simp
      rw [hlen, List.drop_append_of_le_length (by omega)]
      exact lookupEntry_append_last _ _ _ (lookupEntry_drop_none _ _ _ hners)
    · rw [if_neg hev]
      exact lookupEntry_append_last _ _ _ hners
  · intro cache ce hsome hlt
    rw [dedupeCore]
    simp only [hsome, hlt, if_true]
  · intro cache ce hsome hge
    rw [dedupeCore]
    have hnlt : ¬ (t < ce.expiresAt) := not_lt.mpr hge
    simp only [hsome, hnlt, if_false]
  · intro httl hclean hmax
    set id := dedupeIdOf o entry with hid
    have hmod1 : ((0 + 1) % o.cleanupEvery == 0) = false := by
      rw [hclean]; decide
    have hmod2 : ((1 + 1) % o.cleanupEvery == 0) = false := by
      rw [hclean]; decide
    have hmod3 : ((2 + 1) % o.cleanupEvery == 0) = false := by
      rw [hclean]; decide
    have hlook1 : lookupEntry ([] : List (String × CacheEntry)) id = none := rfl
    have h1 : dedupeStep o ⟨[], 0⟩ 0 entry = (true, ⟨[(id, ⟨1000, 0⟩)], 1⟩) := by
      rw [dedupeStep]
      simp only [hmod1, Bool.false_eq_true, if_false, dedupeCore, ← hid, hlook1]
      rw [httl, hmax]
      norm_num [eraseEntry]
    have hlooks : ∀ (ce : CacheEntry), lookupEntry [(id, ce)] id = some ce := by
      intro ce
      simp [lookupEntry, List.find?]
    have herase : ∀ (ce : CacheEntry), eraseEntry [(id, ce)] id = [] := by
      intro ce
      simp [eraseEntry, List.filter_cons]
    have h2 : dedupeStep o ⟨[(id, ⟨1000, 0⟩)], 1⟩ 999 entry =
        (false, ⟨[(id, ⟨1000, 999⟩)], 2⟩) := by
      rw [dedupeStep]
      simp only [hmod2, Bool.false_eq_true, if_false, dedupeCore, ← hid, hlooks]
      norm_num [herase]
    have h3 : dedupeStep o ⟨[(id, ⟨1000, 999⟩)], 2⟩ 1000 entry =
        (true, ⟨[(id, ⟨1000 + 1000, 1000⟩)], 3⟩) := by
      rw [dedupeStep]
      simp only [hmod3, Bool.false_eq_true, if_false, dedupeCore, ← hid, hlooks]
      rw [httl]
      norm_num [herase]
    rw [h1]
    simp only
    rw [h2]
    simp only
    rw [h3]

/-- Concrete dedupe options for the closed witness: `ttlMs = 1000`,
constant fingerprint, no scope key, defaults elsewhere. -/
def dedupeCfg0 : DedupeOptions Unit :=
  { ttlMs := 1000
    key := none
    fingerprint := fun _ => "hello" }

/-- Closed witness for `dedupe_ttl_semantics`: first emit at 0 passes, the
identical entry at 999 drops, and at 1000 passes again. -/
theorem dedupe_ttl_semantics_witness :
    ((dedupeStep dedupeCfg0 ⟨[], 0⟩ 0 ()).1,
      (dedupeStep dedupeCfg0 (dedupeStep dedupeCfg0 ⟨[], 0⟩ 0 ()).2 999 ()).1,
      (dedupeStep dedupeCfg0
          (dedupeStep dedupeCfg0 (dedupeStep dedupeCfg0 ⟨[], 0⟩ 0 ()).2 999 ()).2
          1000 ()).1) =
    (true, false, true) :=
  (dedupe_ttl_semantics dedupeCfg0 0 ()).2.2.2 rfl rfl rfl

/-! ## HTTP batch transport (src/transports/httpBatch.ts)

Queue discipline, batching and the retry/backoff loop.  Delays are integer
milliseconds (the floor of a rational); `responses n` is the outcome of the
`(n+1)`-th post for the in-flight batch and `rand n` the `(n+1)`-th value
returned by the injected RNG. -/

/-- The default `retryOnStatus`: 408, 429 and 500-599. -/
def defaultRetryOn (status : ℕ) : Bool :=
  status == 408 || status == 429 || (500 ≤ status && status ≤ 599)

structure RetryOptions where
  retries : ℕ := 2
  baseDelayMs : ℚ := 250
  maxDelayMs : ℚ := 5000
  jitter : ℚ := 1 / 5
  retryOn : ℕ → Bool := defaultRetryOn

inductive FetchOutcome where
  | resp (status : ℕ)
  | thrown

/-- `Response.ok`: any 2xx status. -/
def respOk (status : ℕ) : Bool := 200 ≤ status && status ≤ 299

/-- An attempt outcome that drives a retry: a thrown transport error, or a
non-2xx status accepted by `retryOnStatus`. -/
def retryableFail (r : RetryOptions) : FetchOutcome → Bool
  | .thrown => true
  | .resp s => !(respOk s) && r.retryOn s

/-- `computeDelay`: exponential backoff with clamped jitter, floored and
clamped at 0.  `attempt ≥ 1` counts the retry being scheduled. -/
def computeDelay (r : RetryOptions) (rand : ℚ) (attempt : ℕ) : ℤ :=
  let base := r.baseDelayMs * 2 ^ (attempt - 1)
  let capped := min base r.maxDelayMs
  let j := max 0 (min 1 r.jitter)
  let factor := 1 - j + 2 * j * rand
  max 0 ⌊capped * factor⌋

/-- The `postWithRetry` loop from a given attempt index: number of posts
made and the sleeps between them, in order. -/
def postWithRetryAux (r : RetryOptions) (responses : ℕ → FetchOutcome)
    (rand : ℕ → ℚ) (attempt : ℕ) : ℕ × List ℤ :=
  match responses attempt with
  | .resp s =>
    if respOk s then (1, [])
    else if r.retryOn s = false then (1, [])
    else if h : r.retries ≤ attempt then (1, [])
    else
      let d := computeDelay r (rand attempt) (attempt + 1)
      let rest := postWithRetryAux r responses rand (attempt + 1)
      (rest.1 + 1, d :: rest.2)
  | .thrown =>
    if h : r.retries ≤ attempt then (1, [])
    else
      let d := computeDelay r (rand attempt) (attempt + 1)
      let rest := postWithRetryAux r responses rand (attempt + 1)
      (rest.1 + 1, d :: rest.2)
termination_by r.retries - attempt
decreasing_by all_goals omega

/-- One whole `postWithRetry` for a batch: attempt 0 is the initial post. -/
def postWithRetry (r : RetryOptions) (responses : ℕ → FetchOutcome)
    (rand : ℕ → ℚ) : ℕ × List ℤ :=
  postWithRetryAux r responses rand 0

/-- The batches spliced off by `flushInternal`'s drain loop
(`queue.splice(0, maxBatch)` until empty): successive chunks of at most
`maxBatch`.  The loop never consults the post outcome, so the chunks do not
depend on responses and a failed batch is never re-enqueued.  (With
`maxBatch = 0` the source's while-loop would never terminate; modelled as
no batches.) -/
def chunksOf (n : ℕ) : List Envelope → List (List Envelope)
  | [] => []
  | x :: xs =>
    if h : n = 0 then []
    else ((x :: xs).take n) :: chunksOf n ((x :: xs).drop n)
termination_by l => l.length
decreasing_by simp [List.length_drop]; omega

/-- `pushEntry` of src/transports/httpBatch.ts: the synchronous queue
discipline of one enqueue (the size-triggered flush is fire-and-forget and
does not change the queue synchronously). -/
def pushEntry (stopped : Bool) (maxQueue : ℕ) (dropOldest : Bool)
    (q : List Envelope) (e : Envelope) : List Envelope :=
  if stopped then q
  else if maxQueue ≤ q.length then
    if dropOldest then q.drop (q.length - maxQueue + 1) ++ [e]
    else q
  else q ++ [e]

def env1 : Envelope := ⟨1, [], .event ⟨"e", none⟩⟩

def env2 : Envelope := ⟨2, [], .event ⟨"e", none⟩⟩

/-- Claim C7 as stated fails at `maxQueue = 0`: every push first clears the
queue but still appends the incoming envelope, so after pushing `Q + k = 1`
envelope the queue holds that envelope and not "the latest `Q = 0`", i.e. it
is not empty. -/
theorem pushEntry_maxQueue_zero_keeps_one :
    List.foldl (pushEntry false 0 true) [] [env0] = [env0] ∧
    ([env0] : List Envelope) ≠ [] := by
  constructor
  · rfl
  · simp

/-- Amended C7 (for `maxQueue = Q ≥ 1`): at enqueue time with a full queue,
`dropOldest = true` discards from the front until there is room for one and
appends the new envelope, while `dropOldest = false` leaves the queue
unchanged; consequently pushing any sequence of envelopes into an initially
empty queue with no flushes leaves exactly the latest `Q` of them, in FIFO
order (for `Q = 0` the code instead keeps exactly the newest envelope). -/
theorem pushEntry_drop_oldest_bound (Q : ℕ) (hQ : 1 ≤ Q) :
    (∀ (q : List Envelope) (e : Envelope), Q ≤ q.length →
      pushEntry false Q true q e = q.drop (q.length - Q + 1) ++ [e] ∧
      pushEntry false Q false q e = q) ∧
    ∀ es : List Envelope,
      List.foldl (pushEntry false Q true) [] es = es.drop (es.length - Q) := by
  constructor
  · intro q e hfull
    constructor
    · rw [pushEntry]
      simp [hfull]
    · rw [pushEntry]
      simp [hfull]
  · intro es
    induction es using List.reverseRecOn with
    | nil => simp
    | append_singleton es e ih =>
      rw [List.foldl_append, List.foldl_cons, List.foldl_nil, ih]
      by_cases hlen : Q ≤ es.length
      · rw [pushEntry]
        have hlen2 : Q ≤ (es.drop (es.length - Q)).length := by
          rw [List.length_drop]
          omega
        simp only [if_false, hlen2, if_true, Bool.false_eq_true, if_pos]
        rw [List.length_drop, List.drop_drop]
        have h1 : es.length - Q + (es.length - (es.length - Q) - Q + 1) =
            es.length - Q + 1 := by omega
        have h2 : (es ++ [e]).length - Q = es.length - Q + 1 := by
          rw [List.length_append]
          simp
          omega
        rw [h1, h2, List.drop_append_of_le_length (by omega)]
      · rw [pushEntry]
        have h0 : es.length - Q = 0 := by omega
        have h0' : (es ++ [e]).length - Q = 0 := by
          rw [List.length_append]
          simp
          omega
        rw [h0, h0', List.drop_zero, List.drop_zero]
        have hnot : ¬ Q ≤ es.length := hlen
        simp [hnot]

/-- Closed witness for `pushEntry_drop_oldest_bound`: `Q = 2`, three pushes
keep the latest two in order. -/
theorem pushEntry_drop_oldest_bound_witness :
    List.foldl (pushEntry false 2 true) [] [env0, env1, env2] = [env1, env2] := by
  rw [(pushEntry_drop_oldest_bound 2 (by norm_num)).2 [env0, env1, env2]]
  rfl

/-- One unfolding of the retry loop: an attempt stops the loop without a
retry exactly when it is not a retryable failure (2xx, or a status rejected
by `retryOnStatus`); a retryable failure retries unless `attempt ≥ retries`. -/
theorem postWithRetryAux_eq (r : RetryOptions) (responses : ℕ → FetchOutcome)
    (rand : ℕ → ℚ) (attempt : ℕ) :
    postWithRetryAux r responses rand attempt =
      if retryableFail r (responses attempt) = false then (1, [])
      else if r.retries ≤ attempt then (1, [])
      else ((postWithRetryAux r responses rand (attempt + 1)).1 + 1,
        computeDelay r (rand attempt) (attempt + 1) ::
          (postWithRetryAux r responses rand (attempt + 1)).2) := by
  rw [postWithRetryAux]
  cases hre : responses attempt with
  | resp s =>
    by_cases hok : respOk s = true
    · simp [retryableFail, hok]
    · rw [Bool.not_eq_true] at hok
      by_cases hretry : r.retryOn s = true
      · by_cases hle : r.retries ≤ attempt
        · simp [retryableFail, hok, hretry, hle]
        · simp [retryableFail, hok, hretry, hle]
      · rw [Bool.not_eq_true] at hretry
        simp [retryableFail, hok, hretry]
  | thrown =>
    by_cases hle : r.retries ≤ attempt
    · simp [retryableFail, hle]
    · simp [retryableFail, hle]

theorem postWithRetryAux_pos (r : RetryOptions) (responses : ℕ → FetchOutcome)
    (rand : ℕ → ℚ) (attempt : ℕ) :
    1 ≤ (postWithRetryAux r responses rand attempt).1 := by
  rw [postWithRetryAux_eq]
  split_ifs <;> simp

theorem postWithRetryAux_le (r : RetryOptions) (responses : ℕ → FetchOutcome)
    (rand : ℕ → ℚ) :
    ∀ (k attempt : ℕ), r.retries - attempt ≤ k →
      (postWithRetryAux r responses rand attempt).1 ≤ k + 1 := by
  intro k
  induction k with
  | zero =>
    intro attempt hk
    rw [postWithRetryAux_eq]
    split_ifs with h1 h2
    · simp
    · simp
    · omega
  | succ k ih =>
    intro attempt hk
    rw [postWithRetryAux_eq]
    split_ifs with h1 h2
    · simp
    · simp
    · have := ih (attempt + 1) (by omega)
      dsimp only
      omega

theorem postWithRetryAux_delays (r : RetryOptions) (responses : ℕ → FetchOutcome)
    (rand : ℕ → ℚ) :
    ∀ (k attempt : ℕ), r.retries - attempt ≤ k →
      (postWithRetryAux r responses rand attempt).2 =
        (List.range' attempt ((postWithRetryAux r responses rand attempt).1 - 1)).map
          (fun a => computeDelay r (rand a) (a + 1)) := by
  intro k
  induction k with
  | zero =>
    intro attempt hk
    rw [postWithRetryAux_eq]
    split_ifs with h1 h2
    · simp
    · simp
    · omega
  | succ k ih =>
    intro attempt hk
    rw [postWithRetryAux_eq]
    split_ifs with h1 h2
    · simp
    · simp
    · dsimp only
      have hpos := postWithRetryAux_pos r responses rand (attempt + 1)
      have hrw : (postWithRetryAux r responses rand (attempt + 1)).1 - 1 + 1 =
          (postWithRetryAux r responses rand (attempt + 1)).1 := by omega
      rw [Nat.add_sub_cancel, ← hrw, List.range'_succ, List.map_cons]
      rw [← ih (attempt + 1) (by omega)]

theorem postWithRetryAux_success (r : RetryOptions) (responses : ℕ → FetchOutcome)
    (rand : ℕ → ℚ) :
    ∀ (m attempt s : ℕ),
      (∀ i, i < m → retryableFail r (responses (attempt + i)) = true) →
      attempt + m ≤ r.retries → responses (attempt + m) = .resp s →
      respOk s = true →
      (postWithRetryAux r responses rand attempt).1 = m + 1 := by
  intro m
  induction m with
  | zero =>
    intro attempt s _ hle hresp hok
    rw [Nat.add_zero] at hresp
    rw [postWithRetryAux_eq, hresp]
    rw [if_pos (by rw [retryableFail, hok]; rfl)]
  | succ m ih =>
    intro attempt s hfail hle hresp hok
    have h0 := hfail 0 (by omega)
    rw [Nat.add_zero] at h0
    rw [postWithRetryAux_eq]
    rw [if_neg (by rw [h0]; simp), if_neg (by omega)]
    dsimp only
    have := ih (attempt + 1) s
      (fun i hi => by
        have hx := hfail (i + 1) (by omega)
        rwa [show attempt + (i + 1) = attempt + 1 + i from by omega] at hx)
      (by omega)
      (by rwa [show attempt + 1 + m = attempt + (m + 1) from by omega])
      hok
    omega

theorem postWithRetryAux_exhaust (r : RetryOptions) (responses : ℕ → FetchOutcome)
    (rand : ℕ → ℚ) (hall : ∀ i, retryableFail r (responses i) = true) :
    ∀ (k attempt : ℕ), r.retries - attempt = k →
      (postWithRetryAux r responses rand attempt).1 = k + 1 := by
  intro k
  induction k with
  | zero =>
    intro attempt hk
    rw [postWithRetryAux_eq]
    rw [if_neg (by rw [hall attempt]; simp), if_pos (by omega)]
  | succ k ih =>
    intro attempt hk
    rw [postWithRetryAux_eq]
    rw [if_neg (by rw [hall attempt]; simp), if_neg (by omega)]
    dsimp only
    rw [ih (attempt + 1) (by omega)]

theorem chunksOf_flatten (n : ℕ) (hn : 1 ≤ n) (q : List Envelope) :
    (chunksOf n q).flatten = q := by
  have H : ∀ (k : ℕ) (l : List Envelope), l.length ≤ k → (chunksOf n l).flatten = l := by
    intro k
    induction k with
    | zero =>
      intro l hl
      cases l with
      | nil => rw [chunksOf]; rfl
      | cons x xs => simp at hl
    | succ k ih =>
      intro l hl
      cases l with
      | nil => rw [chunksOf]; rfl
      | cons x xs =>
        rw [chunksOf, dif_neg (by omega), List.flatten_cons]
        rw [ih ((x :: xs).drop n) (by simp [List.length_drop, List.length_cons] at hl ⊢; omega)]
        exact List.take_append_drop n (x :: xs)
  exact H q.length q le_rfl
/-- Claim C6: for each batch, attempt 0 is the initial post and
(i) at most `1 + retries` posts are ever made;
(ii) the sleeps between posts are exactly
`max 0 ⌊min(maxDelayMs, baseDelayMs·2^a) · ((1−j) + 2·j·random())⌋` after the
`a`-th attempt fails (floored, clamped at 0; `j = jitter ∈ [0,1]`);
(iii) a first response with a non-retryable non-2xx status stops after
exactly one post with no sleeps (batch dropped silently);
(iv) a 2xx response at attempt `m` after `m` retryable failures stops the
loop at `m + 1` posts;
(v) if every attempt fails retryably (retryable status or thrown transport
error alike) the loop gives up after exactly `1 + retries` posts;
(vi) the default retryable statuses are 408, 429 and 500-599;
(vii) `flushInternal` posts the queue as successive `maxBatch`-chunks whose
concatenation is the whole queue — independent of any response, so a batch
is never re-enqueued. -/
theorem http_retry_policy (r : RetryOptions) (responses : ℕ → FetchOutcome)
    (rand : ℕ → ℚ) :
    (postWithRetry r responses rand).1 ≤ r.retries + 1 ∧
    ((postWithRetry r responses rand).2 =
      (List.range ((postWithRetry r responses rand).1 - 1)).map
        (fun a => computeDelay r (rand a) (a + 1))) ∧
    (0 ≤ r.jitter → r.jitter ≤ 1 → ∀ (a : ℕ) (x : ℚ),
      computeDelay r x (a + 1) =
        max 0 ⌊min r.maxDelayMs (r.baseDelayMs * 2 ^ a) *
          (1 - r.jitter + 2 * r.jitter * x)⌋) ∧
    (∀ s : ℕ, responses 0 = .resp s → respOk s = false → r.retryOn s = false →
      postWithRetry r responses rand = (1, [])) ∧
    (∀ (m s : ℕ), m ≤ r.retries →
      (∀ i, i < m → retryableFail r (responses i) = true) →
      responses m = .resp s → respOk s = true →
      (postWithRetry r responses rand).1 = m + 1) ∧
    ((∀ i, retryableFail r (responses i) = true) →
      (postWithRetry r responses rand).1 = r.retries + 1) ∧
    (∀ s : ℕ, defaultRetryOn s = true ↔
      s = 408 ∨ s = 429 ∨ (500 ≤ s ∧ s ≤ 599)) ∧
    (∀ (maxBatch : ℕ) (q : List Envelope), 1 ≤ maxBatch →
      (chunksOf maxBatch q).flatten = q) := by
  refine ⟨?_, ?_, ?_, ?_, ?_, ?_, ?_, ?_⟩
  · exact postWithRetryAux_le r responses rand r.retries 0 (by omega)
  · rw [postWithRetry, List.range_eq_range']
    exact postWithRetryAux_delays r responses rand r.retries 0 (by omega)
  · intro hj0 hj1 a x
    rw [computeDelay]
    have h1 : a + 1 - 1 = a := by omega
    have h2 : max 0 (min 1 r.jitter) = r.jitter := by
      rw [min_eq_right hj1, max_eq_right hj0]
    rw [h1, h2, min_comm]
  · intro s hresp hok hretry
    rw [postWithRetry, postWithRetryAux_eq, hresp]
    rw [if_pos (by rw [retryableFail, hok, hretry]; rfl)]
  · intro m s hm hfail hresp hok
    exact postWithRetryAux_success r responses rand m 0 s
      (by simpa using hfail) (by omega) (by simpa using hresp) hok
  · intro hall
    exact postWithRetryAux_exhaust r responses rand hall r.retries 0 (by omega)
  · intro s
    simp only [defaultRetryOn, Bool.or_eq_true, Bool.and_eq_true, beq_iff_eq,
      decide_eq_true_eq]
    tauto
  · intro maxBatch q hmb
    exact chunksOf_flatten maxBatch hmb q

/-- Retry configuration of the spec's scenario 6: `retries = 3`,
`baseDelayMs = 100`, `jitter = 0`, default retryable statuses. -/
def retryCfg0 : RetryOptions :=
  { retries := 3, baseDelayMs := 100, jitter := 0 }

/-- Responses of scenario 6: two 503s, then a 204. -/
def responses0 : ℕ → FetchOutcome := fun n => if n < 2 then .resp 503 else .resp 204

/-- Closed witness for `http_retry_policy`: scenario 6 makes exactly three
posts with sleeps of 100 ms and 200 ms between them. -/
theorem http_retry_policy_witness :
    (postWithRetry retryCfg0 responses0 (fun _ => 1 / 2)).1 = 3 ∧
    (postWithRetry retryCfg0 responses0 (fun _ => 1 / 2)).2 = [100, 200] := by
  have h := http_retry_policy retryCfg0 responses0 (fun _ => 1 / 2)
  have hposts : (postWithRetry retryCfg0 responses0 (fun _ => 1 / 2)).1 = 3 := by
    refine h.2.2.2.2.1 2 204 (by norm_num [retryCfg0]) ?_ (by norm_num [responses0]) (by rfl)
    intro i hi
    have hri : responses0 i = .resp 503 := by
      simp [responses0, hi]
    rw [hri]
    rfl
  refine ⟨hposts, ?_⟩
  rw [h.2.1, hposts]
  have hd1 : computeDelay retryCfg0 (1 / 2) (0 + 1) = 100 := by
    rw [computeDelay]
    norm_num [retryCfg0]
  have hd2 : computeDelay retryCfg0 (1 / 2) (1 + 1) = 200 := by
    rw [computeDelay]
    norm_num [retryCfg0]
  rw [show (3 : ℕ) - 1 = 2 from rfl]
  rw [show List.range 2 = [0, 1] from rfl, List.map_cons, List.map_cons, List.map_nil]
  rw [hd1, hd2]

/-! ## Canonical serializer (src/middlewares/dedupe.ts, `stableStringify`)

To observe reference identity (the `WeakSet` tracks objects, not shapes),
values here live in a heap: `HVal.ref a` points at the heap object stored
at address `a`.  The `seen` set is the list of addresses already visited,
threaded through the traversal in evaluation order and never removed from,
exactly like the closed-over `WeakSet`.  Finite numbers are modelled as
integers (whose `String(v)` is the decimal representation). -/

inductive HVal where
  | vnull
  | vundef
  | vbool (b : Bool)
  | vint (i : ℤ)
  | vnonfinite
  | vstr (s : String)
  | vbigint (i : ℤ)
  | vfunc
  | ref (a : ℕ)

inductive HObj where
  | arr (elems : List HVal)
  | obj (fields : List (String × HVal))
  | err (name msg stack : String)

abbrev Heap := List HObj

def hexDigit (n : ℕ) : Char :=
  if n < 10 then Char.ofNat (48 + n) else Char.ofNat (87 + n)

/-- One character under `JSON.stringify`'s string escaping. -/
def escChar (c : Char) : String :=
  if c = '"' then "\\\""
  else if c = '\\' then "\\\\"
  else if c = Char.ofNat 8 then "\\b"
  else if c = Char.ofNat 9 then "\\t"
  else if c = Char.ofNat 10 then "\\n"
  else if c = Char.ofNat 12 then "\\f"
  else if c = Char.ofNat 13 then "\\r"
  else if c.toNat < 32 then
    "\\u00" ++ String.mk [hexDigit (c.toNat / 16), hexDigit (c.toNat % 16)]
  else String.singleton c

/-- `JSON.stringify` of a string value. -/
def jsonQuote (s : String) : String :=
  "\"" ++ String.join (s.data.map escChar) ++ "\""

/-- The default string order of `Array.prototype.sort`: lexicographic on
UTF-16 code units. -/
def unitsLe : List ℕ → List ℕ → Bool
  | [], _ => true
  | _ :: _, [] => false
  | x :: xs, y :: ys => if x < y then true else if y < x then false else unitsLe xs ys

def keyLe (a b : String) : Bool := unitsLe (utf16Units a) (utf16Units b)

/-- `Object.keys(obj).sort()` on the field list (keys of a JavaScript
object are distinct, so any sort with the code-unit order gives the same
result; modelled as insertion sort). -/
def insertSorted (kv : String × HVal) :
    List (String × HVal) → List (String × HVal)
  | [] => [kv]
  | x :: xs => if keyLe kv.1 x.1 then kv :: x :: xs else x :: insertSorted kv xs

def sortFields : List (String × HVal) → List (String × HVal)
  | [] => []
  | x :: xs => insertSorted x (sortFields xs)

/-- The `walk` closure of `stableStringify`.  `fuel = maxDepth + 1 - depth`,
so `fuel = 0` is `depth > maxDepth`.  Returns the rendered string and the
grown `seen` set; children are rendered left to right, threading `seen`.
An `Error` instance is serialized before the cycle check (as in the
source); a dangling address behaves like an empty object. -/
def hWalk (h : Heap) : ℕ → HVal → List ℕ → String × List ℕ
  | 0, _, seen => ("\"[MaxDepth]\"", seen)
  | fuel + 1, v, seen =>
    match v with
    | .vnull => ("null", seen)
    | .vstr s => (jsonQuote s, seen)
    | .vint i => (toString i, seen)
    | .vnonfinite => ("\"[NonFiniteNumber]\"", seen)
    | .vbool b => (if b then "true" else "false", seen)
    | .vundef => ("\"[Undefined]\"", seen)
    | .vbigint i => (jsonQuote (toString i), seen)
    | .vfunc => ("\"[Function]\"", seen)
    | .ref a =>
      match (h.get? a).getD (.obj []) with
      | .err name msg stack =>
        ("\x7b\"$error\":" ++ jsonQuote name ++ ",\"message\":" ++ jsonQuote msg ++
          ",\"stack\":" ++ jsonQuote stack ++ "\x7d", seen)
      | .arr elems =>
        if a ∈ seen then ("\"[Circular]\"", seen)
        else
          let r := elems.foldl
            (fun (acc : List String × List ℕ) e =>
              let w := hWalk h fuel e acc.2
              (acc.1 ++ [w.1], w.2))
            ([], a :: seen)
          ("[" ++ String.intercalate "," r.1 ++ "]", r.2)
      | .obj fields =>
        if a ∈ seen then ("\"[Circular]\"", seen)
        else
          let r := (sortFields fields).foldl
            (fun (acc : List String × List ℕ) kv =>
              let w := hWalk h fuel kv.2 acc.2
              (acc.1 ++ [jsonQuote kv.1 ++ ":" ++ w.1], w.2))
            ([], a :: seen)
          ("\x7b" ++ String.intercalate "," r.1 ++ "\x7d", r.2)

/-- `stableStringify(value, maxDepth)`: walk from depth 0 with a fresh
(empty) visited set. -/
def stableStringify (h : Heap) (maxDepth : ℕ) (v : HVal) : String :=
  (hWalk h (maxDepth + 1) v []).1

/-- Records whose payloads live in the heap, for `defaultFingerprint`
(`data`/`err`/`props` may be `vundef` when absent). -/
structure HRecordLog where
  level : LogLevel
  msg : String
  data : HVal
  err : HVal

structure HRecordEvent where
  name : String
  props : HVal

inductive HRecord where
  | log (r : HRecordLog)
  | event (r : HRecordEvent)

/-- `defaultFingerprint` of src/middlewares/dedupe.ts. -/
def defaultFingerprint (h : Heap) (maxDepth : ℕ) : HRecord → String
  | .log r =>
    "log:" ++ r.level.toString ++ ":" ++ r.msg ++
      "|data=" ++ stableStringify h maxDepth r.data ++
      "|err=" ++ stableStringify h maxDepth r.err
  | .event r =>
    "event:" ++ r.name ++ "|props=" ++ stableStringify h maxDepth r.props

def heap0 : Heap :=
  [ .obj [("v", .vint 1)],
    .obj [("v", .vint 1)],
    .obj [("a", .ref 0), ("b", .ref 0)],
    .obj [("a", .ref 0), ("b", .ref 1)] ]

def recShared : HRecord := .event ⟨"e", .ref 2⟩

def recCopied : HRecord := .event ⟨"e", .ref 3⟩

/-- The visited set only grows along the traversal (it is never cleared
when backtracking). -/
theorem hWalk_seen_mono (h : Heap) :
    ∀ (fuel : ℕ) (v : HVal) (seen : List ℕ), seen ⊆ (hWalk h fuel v seen).2 := by
  intro fuel
  induction fuel with
  | zero =>
    intro v seen
    rw [hWalk]
    exact List.Subset.refl _
  | succ fuel ih =>
    intro v seen
    cases v with
    | vnull => rw [hWalk]; exact List.Subset.refl _
    | vundef => rw [hWalk]; exact List.Subset.refl _
    | vbool b => rw [hWalk]; exact List.Subset.refl _
    | vint i => rw [hWalk]; exact List.Subset.refl _
    | vnonfinite => rw [hWalk]; exact List.Subset.refl _
    | vstr s => rw [hWalk]; exact List.Subset.refl _
    | vbigint i => rw [hWalk]; exact List.Subset.refl _
    | vfunc => rw [hWalk]; exact List.Subset.refl _
    | ref a =>
      rw [hWalk]
      cases hobj : (h.get? a).getD (.obj []) with
      | err name msg stack =>
        simp only [hobj]
        exact List.Subset.refl _
      | arr elems =>
        simp only [hobj]
        by_cases hseen : a ∈ seen
        · simp only [hseen, if_true]
          exact List.Subset.refl _
        · simp only [hseen, if_false]
          have hfold : ∀ (l : List HVal) (acc : List String × List ℕ),
              acc.2 ⊆ (l.foldl
                (fun (acc : List String × List ℕ) e =>
                  let w := hWalk h fuel e acc.2
                  (acc.1 ++ [w.1], w.2)) acc).2 := by
            intro l
            induction l with
            | nil => intro acc; exact List.Subset.refl _
            | cons e rest ihl =>
              intro acc
              rw [List.foldl_cons]
              intro x hx
              exact ihl _ (ih e acc.2 hx)
          intro x hx
          exact hfold elems ([], a :: seen) (List.mem_cons_of_mem a hx)
      | obj fields =>
        simp only [hobj]
        by_cases hseen : a ∈ seen
        · simp only [hseen, if_true]
          exact List.Subset.refl _
        · simp only [hseen, if_false]
          have hfold : ∀ (l : List (String × HVal)) (acc : List String × List ℕ),
              acc.2 ⊆ (l.foldl
                (fun (acc : List String × List ℕ) kv =>
                  let w := hWalk h fuel kv.2 acc.2
                  (acc.1 ++ [jsonQuote kv.1 ++ ":" ++ w.1], w.2)) acc).2 := by
            intro l
            induction l with
            | nil => intro acc; exact List.Subset.refl _
            | cons kv rest ihl =>
              intro acc
              rw [List.foldl_cons]
              intro x hx
              exact ihl _ (ih kv.2 acc.2 hx)
          intro x hx
          exact hfold (sortFields fields) ([], a :: seen) (List.mem_cons_of_mem a hx)

/-- Claim C10: the canonical serializer renders `"[Circular]"` for every
reference whose address is already in the visited set — which, by
`hWalk_seen_mono`, contains every object visited anywhere earlier in the
traversal, not only ancestors — so second and later occurrences of a shared
(acyclic) sub-object serialize as `"[Circular]"`.  Concretely, for the two
structurally equal event records over `heap0` (one sharing the sub-object
`{v: 1}` under both keys, one holding two copies), the default fingerprints
differ, so the two records are not deduplicated against each other. -/
theorem stableStringify_shared_reference (h : Heap) :
    (∀ (fuel : ℕ) (v : HVal) (seen : List ℕ), seen ⊆ (hWalk h fuel v seen).2) ∧
    (∀ (fuel a : ℕ) (seen : List ℕ) (fields : List (String × HVal)),
      (h.get? a).getD (.obj []) = .obj fields → a ∈ seen →
      hWalk h (fuel + 1) (.ref a) seen = ("\"[Circular]\"", seen)) ∧
    defaultFingerprint heap0 10 recShared =
      "event:e|props=\x7b\"a\":\x7b\"v\":1\x7d,\"b\":\"[Circular]\"\x7d" ∧
    defaultFingerprint heap0 10 recCopied =
      "event:e|props=\x7b\"a\":\x7b\"v\":1\x7d,\"b\":\x7b\"v\":1\x7d\x7d" ∧
    defaultFingerprint heap0 10 recShared ≠ defaultFingerprint heap0 10 recCopied := by
  refine ⟨hWalk_seen_mono h, ?_, by rfl, by rfl, by decide⟩
  intro fuel a seen fields hobj hseen
  rw [hWalk]
  simp only [hobj, hseen, if_true]

/-- Closed witness for `stableStringify_shared_reference`: the address `0`
already in the visited set renders as `"[Circular]"` on `heap0`. -/
theorem stableStringify_shared_reference_witness :
    (heap0.get? 0).getD (.obj []) = .obj [("v", .vint 1)] ∧
    (0 : ℕ) ∈ [0] ∧
    hWalk heap0 (10 + 1) (.ref 0) [0] = ("\"[Circular]\"", [0]) := by
  refine ⟨rfl, by decide, ?_⟩
  exact (stableStringify_shared_reference heap0).2.1 10 0 [0] [("v", .vint 1)] rfl (by decide)

end TelemetryJs
